import Mathlib

set_option autoImplicit false

/-!
Shallow embedding of the warehouse inventory blockchain
(source: warehouse_invetory_chain.py).

Modelling conventions:
- Python values that can appear in a transaction dict are modelled by
  `PyVal`: integers, strings, and floats (floats as rationals, which is
  exact for the float literals the program manipulates).
- A transaction is a Python dict with keys item_id and change
  (`PyTx.dict`), or any other object (`PyTx.other`, with an opaque tag so
  that distinct junk values stay distinct).
- The transactions field of a block is either a string (the genesis
  payload), a list, or a bare dict (`TxField`), matching the three cases
  get_inventory distinguishes.
- SHA-256 over the canonical JSON serialisation is idealised as an
  injective digest: `Block.calculate_hash` encodes the five hashed fields
  (index, timestamp, transactions, previous_hash, nonce) into a natural
  number via Mathlib's `Encodable`.  Injectivity of this digest is the
  standard collision-freeness idealisation of SHA-256.
- The check hash.startswith("0" * difficulty) on the 64-hex-character
  digest is read arithmetically: the first d hex digits of a 64-digit
  digest are zero iff the digest value (reduced mod 16^64) is below
  16^(64-d).  This is `hashMeetsDifficulty`.
- The proof-of-work loop in mine_block is unbounded in the source; it is
  modelled with explicit fuel, returning `none` when the fuel runs out.
- datetime.now() is nondeterministic; every operation that reads the
  clock takes the timestamp as an explicit argument.
- Persistence (save_chain) is modelled by a counter of save calls.
-/

/-- A Python value usable as the item_id or change of a transaction:
an int, a str, or a float (modelled exactly as a rational). -/
inductive PyVal : Type
  | int (n : Int)
  | str (s : String)
  | float (q : Rat)
deriving DecidableEq

/-- One element of a transactions list: a dict with both keys
item_id and change, or any other Python object (non-dict, or a dict
missing one of the keys), kept opaque. -/
structure TxDict : Type where
  item_id : PyVal
  change : PyVal
deriving DecidableEq

/-- A candidate transaction. -/
inductive PyTx : Type
  | dict (d : TxDict)
  | other (junk : Nat)
deriving DecidableEq

/-- The transactions field of a block: the genesis string payload, a
list of transactions, or a bare dict (the defensive case get_inventory
wraps in a singleton list). -/
inductive TxField : Type
  | pyStr (s : String)
  | list (l : List PyTx)
  | dict (d : TxDict)
deriving DecidableEq

/-- Truncation of a rational toward zero: the behaviour of Python
int() on a float. -/
def ratTrunc (q : Rat) : Int :=
  Int.sign q.num * ((q.num.natAbs / q.den : Nat) : Int)

/-- Reading a non-empty all-digit character list as a natural number
(part of the model of Python int() on strings). -/
def parseDigits (l : List Char) : Option Nat :=
  if l = [] then none
  else l.foldl (fun acc c =>
    match acc with
    | none => none
    | some n => if c.isDigit then some (10 * n + (c.toNat - 48)) else none) (some 0)

/-- Python int() applied to a string: an optional sign followed by
decimal digits; anything else raises ValueError (`none`). -/
def pyIntOfString (s : String) : Option Int :=
  match s.data with
  | '-' :: rest => (parseDigits rest).map (fun n => -(n : Int))
  | '+' :: rest => (parseDigits rest).map (fun n => (n : Int))
  | l => (parseDigits l).map (fun n => (n : Int))

/-- Python int(v): succeeds on ints, truncates floats toward zero,
parses integer-literal strings, raises (here: `none`) otherwise. -/
def pyInt : PyVal → Option Int
  | .int n => some n
  | .float q => some (ratTrunc q)
  | .str s => pyIntOfString s

/-- Python == on the values we model: numbers compare by numeric value
across int and float, strings by string equality, and a number never
equals a string. -/
def pyEq : PyVal → PyVal → Bool
  | .int a, .int b => a = b
  | .int a, .float q => (a : Rat) = q
  | .float q, .int a => q = (a : Rat)
  | .float a, .float b => a = b
  | .str a, .str b => a = b
  | .int _, .str _ => false
  | .float _, .str _ => false
  | .str _, .int _ => false
  | .str _, .float _ => false

/-! Encodable instances giving the idealised injective digest. -/

/-- Characters are encodable via their code point. -/
instance : Encodable Char :=
  Encodable.ofLeftInjection Char.toNat (fun n => some (Char.ofNat n))
    (fun c => congrArg some (Char.ofNat_toNat c))

/-- Strings are encodable via their character list. -/
instance : Encodable String :=
  Encodable.ofEquiv (List Char)
    { toFun := String.data
      invFun := String.mk
      left_inv := fun s => rfl
      right_inv := fun l => rfl }

/-- `PyVal` as a sum, for encodability. -/
def pyValEquiv : PyVal ≃ (Int ⊕ String ⊕ Rat) where
  toFun v :=
    match v with
    | .int n => Sum.inl n
    | .str s => Sum.inr (Sum.inl s)
    | .float q => Sum.inr (Sum.inr q)
  invFun v :=
    match v with
    | Sum.inl n => .int n
    | Sum.inr (Sum.inl s) => .str s
    | Sum.inr (Sum.inr q) => .float q
  left_inv v := by cases v <;> rfl
  right_inv v := by rcases v with _ | (_ | _) <;> rfl

instance : Encodable PyVal := Encodable.ofEquiv _ pyValEquiv

/-- `TxDict` as a pair, for encodability. -/
def txDictEquiv : TxDict ≃ (PyVal × PyVal) where
  toFun d := (d.item_id, d.change)
  invFun p := ⟨p.1, p.2⟩
  left_inv d := rfl
  right_inv p := rfl

instance : Encodable TxDict := Encodable.ofEquiv _ txDictEquiv

/-- `PyTx` as a sum, for encodability. -/
def pyTxEquiv : PyTx ≃ (TxDict ⊕ Nat) where
  toFun t :=
    match t with
    | .dict d => Sum.inl d
    | .other j => Sum.inr j
  invFun t :=
    match t with
    | Sum.inl d => .dict d
    | Sum.inr j => .other j
  left_inv t := by cases t <;> rfl
  right_inv t := by cases t <;> rfl

instance : Encodable PyTx := Encodable.ofEquiv _ pyTxEquiv

/-- `TxField` as a sum, for encodability. -/
def txFieldEquiv : TxField ≃ (String ⊕ List PyTx ⊕ TxDict) where
  toFun t :=
    match t with
    | .pyStr s => Sum.inl s
    | .list l => Sum.inr (Sum.inl l)
    | .dict d => Sum.inr (Sum.inr d)
  invFun t :=
    match t with
    | Sum.inl s => .pyStr s
    | Sum.inr (Sum.inl l) => .list l
    | Sum.inr (Sum.inr d) => .dict d
  left_inv t := by cases t <;> rfl
  right_inv t := by rcases t with _ | (_ | _) <;> rfl

instance : Encodable TxField := Encodable.ofEquiv _ txFieldEquiv

/-- A block: the five hashed fields plus the stored hash.
The stored hash is a separate field precisely so that tampering
(changing a field without recomputing the hash) is representable. -/
structure Block : Type where
  index : Nat
  timestamp : String
  transactions : TxField
  previous_hash : Nat
  nonce : Nat
  hash : Nat
deriving DecidableEq

/-- Block.calculate_hash: the idealised SHA-256 digest of the canonical
serialisation of the five fields (json.dumps with sort_keys followed by
sha256 in the source, idealised as an injective encoding into Nat). -/
def Block.calculate_hash (b : Block) : Nat :=
  Encodable.encode (b.index, b.timestamp, b.transactions, b.previous_hash, b.nonce)

/-- Block.__init__: stores the fields and computes the hash upon
creation.  The source defaults nonce to 0; call sites here pass it
explicitly. -/
def Block.make (index : Nat) (timestamp : String) (transactions : TxField)
    (previous_hash : Nat) (nonce : Nat) : Block :=
  { index := index, timestamp := timestamp, transactions := transactions,
    previous_hash := previous_hash, nonce := nonce,
    hash := Encodable.encode (index, timestamp, transactions, previous_hash, nonce) }

/-- hash.startswith("0" * difficulty) for a 64-hex-character digest,
read arithmetically: the first d hex digits are all zero iff the digest
value is below 16^(64-d). -/
def hashMeetsDifficulty (h : Nat) (d : Nat) : Bool :=
  decide (h % 16 ^ 64 < 16 ^ (64 - d))

/-- One nonce step of the mining loop: nonce += 1 followed by
hash = calculate_hash(). -/
def Block.setNonce (b : Block) (n : Nat) : Block :=
  let b' : Block := { b with nonce := n }
  { b' with hash := b'.calculate_hash }

/-- Block.mine_block: the proof-of-work loop, with explicit fuel
bounding the number of nonce increments (the source loops unboundedly;
`none` means the search did not finish within the fuel). -/
def Block.mine_block (difficulty : Nat) : Nat → Block → Option Block
  | 0, b => if hashMeetsDifficulty b.hash difficulty then some b else none
  | fuel + 1, b =>
      if hashMeetsDifficulty b.hash difficulty then some b
      else Block.mine_block difficulty fuel (b.setNonce (b.nonce + 1))

/-- The blockchain state: the chain, the pending queue, the configured
difficulty, and a counter of save_chain calls (the persistence model). -/
structure Blockchain : Type where
  chain : List Block
  pending_transactions : List PyTx
  difficulty : Nat
  saveCount : Nat
deriving DecidableEq

/-- Blockchain.get_latest_block: chain[-1]; `none` models the
IndexError on an empty chain. -/
def Blockchain.get_latest_block (bc : Blockchain) : Option Block :=
  bc.chain.getLast?

/-- Blockchain.add_transaction: requires a dict with both keys, then
int(change) inside try/except (str(item_id) never raises, so item_id is
not actually constrained); on success appends to the pending queue. -/
def Blockchain.add_transaction (bc : Blockchain) (t : PyTx) : Blockchain × Bool :=
  match t with
  | .other _ => (bc, false)
  | .dict d =>
      match pyInt d.change with
      | none => (bc, false)
      | some _ =>
          ({ bc with pending_transactions := bc.pending_transactions ++ [t] }, true)

/-- Blockchain.create_genesis_block: build the index-0 block with the
genesis payload and previous_hash "0" (digit value 0), then mine it. -/
def Blockchain.create_genesis_block (fuel : Nat) (timestamp : String)
    (bc : Blockchain) : Option Blockchain :=
  match (Block.make 0 timestamp (TxField.pyStr "Genesis Block") 0 0).mine_block bc.difficulty fuel with
  | none => none
  | some g => some { bc with chain := bc.chain ++ [g] }

/-- Blockchain.__init__ in the no-persisted-state branch: fresh state,
genesis creation, then the initial save_chain. -/
def freshBlockchain (fuel : Nat) (difficulty : Nat) (timestamp : String) :
    Option Blockchain :=
  match Blockchain.create_genesis_block fuel timestamp
      { chain := [], pending_transactions := [], difficulty := difficulty, saveCount := 0 } with
  | none => none
  | some bc1 => some { bc1 with saveCount := bc1.saveCount + 1 }

/-- Blockchain.mine_pending_transactions: returns (state, False) and
changes nothing when the queue is empty; otherwise builds the block
from the whole queue, mines it, appends, clears the queue, saves. -/
def Blockchain.mine_pending_transactions (fuel : Nat) (timestamp : String)
    (bc : Blockchain) : Option (Blockchain × Bool) :=
  if bc.pending_transactions = [] then some (bc, false)
  else
    match bc.get_latest_block with
    | none => none
    | some latest =>
        match (Block.make (latest.index + 1) timestamp
            (TxField.list bc.pending_transactions) latest.hash 0).mine_block bc.difficulty fuel with
        | none => none
        | some nb =>
            some ({ bc with
                      chain := bc.chain ++ [nb],
                      pending_transactions := [],
                      saveCount := bc.saveCount + 1 }, true)

/-- The body of the validation loop of Blockchain.is_chain_valid, with
`prev` the block at index i-1 and the list the blocks from index i on:
the three checks (stored hash, link, proof-of-work), short-circuiting. -/
def chainValidFrom (d : Nat) : Block → List Block → Bool
  | _, [] => true
  | prev, cur :: rest =>
      if cur.hash ≠ cur.calculate_hash then false
      else if cur.previous_hash ≠ prev.hash then false
      else if hashMeetsDifficulty cur.hash d = false then false
      else chainValidFrom d cur rest

/-- Blockchain.is_chain_valid: the loop runs over i = 1..N-1; an empty
or genesis-only chain is vacuously valid, and block 0 itself is never
re-hashed. -/
def Blockchain.is_chain_valid (bc : Blockchain) : Bool :=
  match bc.chain with
  | [] => true
  | g :: rest => chainValidFrom bc.difficulty g rest

/-! The inventory projector (Blockchain.get_inventory). -/

/-- inventory.get(item_id, default): first entry whose key is Python-==
to the query key. -/
def dictGetD (inv : List (PyVal × Int)) (k : PyVal) (dflt : Int) : Int :=
  match inv.find? (fun p => pyEq p.1 k) with
  | some p => p.2
  | none => dflt

/-- inventory[item_id] = v: update the first Python-==-matching entry
in place (keeping the original key object, as Python dicts do), else
append a new entry at the end. -/
def dictSet : List (PyVal × Int) → PyVal → Int → List (PyVal × Int)
  | [], k, v => [(k, v)]
  | p :: rest, k, v =>
      if pyEq p.1 k then (p.1, v) :: rest else p :: dictSet rest k v

/-- Whether some entry of the mapping has a key Python-== to k. -/
def dictHasKey (inv : List (PyVal × Int)) (k : PyVal) : Bool :=
  inv.any (fun p => pyEq p.1 k)

/-- The per-transaction step of the projection loop: a dict with both
keys is folded in via inventory[item_id] = inventory.get(item_id, 0) +
int(change); anything else is skipped with a warning.  `none` models
the uncaught ValueError/TypeError raised by int(change). -/
def applyTransaction (inv : List (PyVal × Int)) : PyTx → Option (List (PyVal × Int))
  | .dict d =>
      match pyInt d.change with
      | none => none
      | some c => some (dictSet inv d.item_id (dictGetD inv d.item_id 0 + c))
  | .other _ => some inv

/-- Folding a whole transaction list, propagating the exception. -/
def applyTxList : List (PyVal × Int) → List PyTx → Option (List (PyVal × Int))
  | inv, [] => some inv
  | inv, t :: ts =>
      match applyTransaction inv t with
      | none => none
      | some inv2 => applyTxList inv2 ts

/-- How get_inventory reads a block's transactions field: a bare dict
is wrapped in a singleton list, a list is taken as is, and anything
else (`none` here) makes the block be skipped with a warning. -/
def blockTxList : TxField → Option (List PyTx)
  | .pyStr _ => none
  | .list l => some l
  | .dict d => some [PyTx.dict d]

/-- Folding the blocks of chain[1:]. -/
def applyBlocks : List (PyVal × Int) → List Block → Option (List (PyVal × Int))
  | inv, [] => some inv
  | inv, b :: bs =>
      match blockTxList b.transactions with
      | none => applyBlocks inv bs
      | some l =>
          match applyTxList inv l with
          | none => none
          | some inv2 => applyBlocks inv2 bs

/-- The result of get_inventory: the None returned on a validation
failure, an uncaught exception from int(change), or the mapping. -/
inductive InvResult : Type
  | invalidChain
  | crash
  | inv (d : List (PyVal × Int))
deriving DecidableEq

/-- Blockchain.get_inventory: validates first and returns the
distinguished failure (None) on an invalid chain; otherwise folds every
transaction of every block after the genesis block. -/
def Blockchain.get_inventory (bc : Blockchain) : InvResult :=
  if bc.is_chain_valid then
    match applyBlocks [] bc.chain.tail with
    | none => .crash
    | some d => .inv d
  else .invalidChain

/-! The GUI layer: InventoryApp._add_transaction (the submit path). -/

/-- The observable outcome of InventoryApp._add_transaction. -/
inductive AppOutcome : Type
  | missingItemId
  | badQuantity
  | invalidChainErr
  | stockError
  | mined
  | pendingOnly
  | addFailed
deriving DecidableEq

/-- InventoryApp._add_transaction: rejects an empty item_id, coerces
the quantity with int() (ValueError -> warning), and for a negative
change checks the current validated projection before enqueueing; then
add_transaction followed immediately by mine_pending_transactions.
`none` models an uncaught exception or exhausted mining fuel. -/
def InventoryApp.addTransaction (fuel : Nat) (timestamp : String)
    (bc : Blockchain) (item_id : String) (quantity_change : PyVal) :
    Option (Blockchain × AppOutcome) :=
  if item_id = "" then some (bc, .missingItemId)
  else
    match pyInt quantity_change with
    | none => some (bc, .badQuantity)
    | some change =>
        let proceed : Option (Blockchain × AppOutcome) :=
          let t : PyTx := .dict ⟨.str item_id, .int change⟩
          match bc.add_transaction t with
          | (bc1, true) =>
              match bc1.mine_pending_transactions fuel timestamp with
              | none => none
              | some (bc2, true) => some (bc2, .mined)
              | some (bc2, false) => some (bc2, .pendingOnly)
          | (bc1, false) => some (bc1, .addFailed)
        if change < 0 then
          match bc.get_inventory with
          | .invalidChain => some (bc, .invalidChainErr)
          | .crash => none
          | .inv inv =>
              if dictGetD inv (.str item_id) 0 + change < 0 then
                some (bc, .stockError)
              else proceed
        else proceed

/-! Concrete states used by the witnesses and counterexamples below.
All use difficulty 0, where mining terminates at once. -/

/-- A small stock-increase transaction for item A. -/
def txA : PyTx := .dict ⟨.str "A", .int 2⟩

/-- The genesis block of a difficulty-0 chain created at time t0. -/
def g0 : Block := Block.make 0 "t0" (.pyStr "Genesis Block") 0 0

/-- The freshly constructed difficulty-0 blockchain. -/
def bc0 : Blockchain :=
  { chain := [g0], pending_transactions := [], difficulty := 0, saveCount := 1 }

/-- The block sealing [txA] on top of the genesis block. -/
def b1 : Block := Block.make 1 "t1" (.list [txA]) g0.hash 0

/-- The chain after submitting txA and mining. -/
def bc1 : Blockchain :=
  { chain := [g0, b1], pending_transactions := [], difficulty := 0, saveCount := 2 }

/-- The genesis block with its payload altered but its stored hash kept. -/
def g0tampered : Block := { g0 with transactions := .pyStr "Genesis Forged" }

/-- bc1 with the genesis payload tampered. -/
def bc1tamperedGenesis : Blockchain := { bc1 with chain := [g0tampered, b1] }

/-- Block b1 with its transaction batch replaced but its stored hash kept. -/
def b1tampered : Block := { b1 with transactions := .list [] }

/-- bc1 with block 1 tampered. -/
def bc1tamperedB1 : Blockchain := { bc1 with chain := [g0, b1tampered] }

/-! Block-level lemmas. -/

/-- The empty difficulty target is met by every hash. -/
theorem hashMeetsDifficulty_zero (h : Nat) : hashMeetsDifficulty h 0 = true := by
  unfold hashMeetsDifficulty
  simp only [Nat.sub_zero, decide_eq_true_eq]
  exact Nat.mod_lt _ (pow_pos (by norm_num) 64)

/-- At difficulty 0 the mining loop returns at once, leaving the block
untouched. -/
theorem mine_block_zero (fuel : Nat) (b : Block) : b.mine_block 0 fuel = some b := by
  cases fuel <;> simp [Block.mine_block, hashMeetsDifficulty_zero]

/-- A block built by the constructor satisfies the hash invariant. -/
theorem Block.make_hash_eq (i : Nat) (ts : String) (txs : TxField) (ph n : Nat) :
    (Block.make i ts txs ph n).hash = (Block.make i ts txs ph n).calculate_hash := rfl

/-- The digest is injective on the five hashed fields (the ideal-hash
assumption standing in for SHA-256 collision resistance). -/
theorem calculate_hash_inj {b b' : Block}
    (h : b.calculate_hash = b'.calculate_hash) :
    b.index = b'.index ∧ b.timestamp = b'.timestamp ∧
    b.transactions = b'.transactions ∧ b.previous_hash = b'.previous_hash ∧
    b.nonce = b'.nonce := by
  have := Encodable.encode_injective h
  simp only [Prod.mk.injEq] at this
  exact ⟨this.1, this.2.1, this.2.2.1, this.2.2.2.1, this.2.2.2.2⟩

/-- What a successful mining run guarantees: the stored hash is in sync,
the difficulty target is met, and all fields other than nonce and hash
are those of the input block. -/
theorem mine_block_spec (d : Nat) : ∀ (fuel : Nat) (b b' : Block),
    b.hash = b.calculate_hash → b.mine_block d fuel = some b' →
    b'.hash = b'.calculate_hash ∧ hashMeetsDifficulty b'.hash d = true ∧
    b'.index = b.index ∧ b'.timestamp = b.timestamp ∧
    b'.transactions = b.transactions ∧ b'.previous_hash = b.previous_hash := by
  intro fuel
  induction fuel with
  | zero =>
      intro b b' hb h
      simp only [Block.mine_block] at h
      split at h
      · cases h
        exact ⟨hb, by assumption, rfl, rfl, rfl, rfl⟩
      · cases h
  | succ n ih =>
      intro b b' hb h
      simp only [Block.mine_block] at h
      split at h
      · cases h
        exact ⟨hb, by assumption, rfl, rfl, rfl, rfl⟩
      · have hstep : (b.setNonce (b.nonce + 1)).hash = (b.setNonce (b.nonce + 1)).calculate_hash := rfl
        obtain ⟨h1, h2, h3, h4, h5, h6⟩ := ih _ _ hstep h
        exact ⟨h1, h2, h3, h4, h5, h6⟩

/-! Chain-level validity lemmas. -/

/-- Unfolding of one validation-loop iteration as a conjunction of the
three checks. -/
theorem chainValidFrom_cons_iff (d : Nat) (prev cur : Block) (rest : List Block) :
    chainValidFrom d prev (cur :: rest) = true ↔
      cur.hash = cur.calculate_hash ∧ cur.previous_hash = prev.hash ∧
      hashMeetsDifficulty cur.hash d = true ∧ chainValidFrom d cur rest = true := by
  rw [chainValidFrom]
  split_ifs with h1 h2 h3 <;> simp_all

/-- Every block the validation loop actually visits (every block after
the genesis block) has its stored hash in sync. -/
theorem chainValidFrom_sealed (d : Nat) :
    ∀ (g : Block) (rest : List Block), chainValidFrom d g rest = true →
      ∀ b ∈ rest, b.hash = b.calculate_hash := by
  intro g rest
  induction rest generalizing g with
  | nil => intro _ b hb; cases hb
  | cons cur rest ih =>
      intro h b hb
      rw [chainValidFrom_cons_iff] at h
      rcases List.mem_cons.mp hb with rfl | hb
      · exact h.1
      · exact ih cur h.2.2.2 b hb

/-- Appending a properly sealed block linked to the current last block
preserves the validation loop. -/
theorem chainValidFrom_append (d : Nat) :
    ∀ (g last nb : Block) (rest : List Block),
      chainValidFrom d g rest = true →
      (g :: rest).getLast? = some last →
      nb.previous_hash = last.hash →
      nb.hash = nb.calculate_hash →
      hashMeetsDifficulty nb.hash d = true →
      chainValidFrom d g (rest ++ [nb]) = true := by
  intro g last nb rest
  induction rest generalizing g with
  | nil =>
      intro _ hlast hlink hseal hdif
      simp only [List.getLast?_singleton, Option.some.injEq] at hlast
      subst hlast
      rw [List.nil_append, chainValidFrom_cons_iff]
      exact ⟨hseal, hlink, hdif, rfl⟩
  | cons cur rest ih =>
      intro h hlast hlink hseal hdif
      rw [chainValidFrom_cons_iff] at h
      rw [List.cons_append, chainValidFrom_cons_iff]
      refine ⟨h.1, h.2.1, h.2.2.1, ?_⟩
      exact ih cur h.2.2.2 (by simpa using hlast) hlink hseal hdif

/-- Pairwise linkage of a block list: each block after the first points
at the stored hash of its predecessor. -/
def chainLinked : List Block → Prop
  | [] => True
  | [_] => True
  | a :: b :: rest => b.previous_hash = a.hash ∧ chainLinked (b :: rest)

/-- Appending a block linked to the last element preserves linkage. -/
theorem chainLinked_append (nb : Block) :
    ∀ (l : List Block) (last : Block), chainLinked l → l.getLast? = some last →
      nb.previous_hash = last.hash → chainLinked (l ++ [nb])
  | [], _, _, hlast, _ => by cases hlast
  | [a], last, _, hlast, hlink => by
      simp only [List.getLast?_singleton, Option.some.injEq] at hlast
      subst hlast
      exact ⟨hlink, trivial⟩
  | a :: b :: rest, last, hl, hlast, hlink => by
      refine ⟨hl.1, ?_⟩
      exact chainLinked_append nb (b :: rest) last hl.2 (by simpa using hlast) hlink

/-- A chain whose blocks are all sealed at the difficulty and pairwise
linked passes the validation loop. -/
theorem chainValidFrom_of_good (d : Nat) :
    ∀ (g : Block) (rest : List Block),
      (∀ b ∈ rest, b.hash = b.calculate_hash ∧ hashMeetsDifficulty b.hash d = true) →
      chainLinked (g :: rest) → chainValidFrom d g rest = true := by
  intro g rest
  induction rest generalizing g with
  | nil => intro _ _; rfl
  | cons cur rest ih =>
      intro hseal hlink
      rw [chainValidFrom_cons_iff]
      obtain ⟨h1, h2⟩ := hseal cur (by simp)
      exact ⟨h1, hlink.1, h2, ih cur (fun b hb => hseal b (by simp [hb])) hlink.2⟩

/-! Characterizations of the chain operations. -/

/-- add_transaction never touches the chain, the difficulty, or the
save counter; it either appends the transaction to the pending queue
(returning True) or leaves the whole state unchanged (returning False). -/
theorem add_transaction_spec (bc : Blockchain) (t : PyTx) :
    (∃ d, t = .dict d ∧ (pyInt d.change).isSome ∧
        bc.add_transaction t =
          ({ bc with pending_transactions := bc.pending_transactions ++ [t] }, true)) ∨
    ((∀ d, t = .dict d → pyInt d.change = none) ∧ bc.add_transaction t = (bc, false)) := by
  rcases t with d | j
  · rcases hp : pyInt d.change with _ | c
    · right
      refine ⟨?_, ?_⟩
      · rintro d' heq
        cases heq
        exact hp
      · simp [Blockchain.add_transaction, hp]
    · left
      refine ⟨d, rfl, ?_, ?_⟩
      · rw [hp]
        rfl
      · simp [Blockchain.add_transaction, hp]
  · right
    refine ⟨?_, rfl⟩
    rintro d heq
    cases heq

/-- What a successful genesis creation does. -/
theorem create_genesis_spec (fuel : Nat) (ts : String) (bc bc' : Blockchain)
    (h : bc.create_genesis_block fuel ts = some bc') :
    ∃ g, (Block.make 0 ts (TxField.pyStr "Genesis Block") 0 0).mine_block bc.difficulty fuel = some g ∧
      bc' = { bc with chain := bc.chain ++ [g] } := by
  unfold Blockchain.create_genesis_block at h
  split at h
  · cases h
  · cases h
    exact ⟨_, by assumption, rfl⟩

/-- What fresh construction (no persisted state) produces. -/
theorem freshBlockchain_spec (fuel d : Nat) (ts : String) (bc : Blockchain)
    (h : freshBlockchain fuel d ts = some bc) :
    ∃ g, (Block.make 0 ts (TxField.pyStr "Genesis Block") 0 0).mine_block d fuel = some g ∧
      bc = { chain := [g], pending_transactions := [], difficulty := d, saveCount := 1 } := by
  unfold freshBlockchain at h
  split at h <;> rename_i heq
  · cases h
  · cases h
    obtain ⟨g, hg, rfl⟩ := create_genesis_spec _ _ _ _ heq
    exact ⟨g, hg, rfl⟩

/-- Full characterization of a completed mine_pending_transactions
call: either the queue was empty and nothing happened (False), or one
block holding the whole queue was mined, appended and saved (True). -/
theorem mine_pending_spec (fuel : Nat) (ts : String) (bc : Blockchain)
    (out : Blockchain × Bool)
    (h : bc.mine_pending_transactions fuel ts = some out) :
    (bc.pending_transactions = [] ∧ out = (bc, false)) ∨
    (bc.pending_transactions ≠ [] ∧
      ∃ latest nb, bc.chain.getLast? = some latest ∧
        (Block.make (latest.index + 1) ts (TxField.list bc.pending_transactions)
            latest.hash 0).mine_block bc.difficulty fuel = some nb ∧
        out = ({ bc with
                   chain := bc.chain ++ [nb],
                   pending_transactions := [],
                   saveCount := bc.saveCount + 1 }, true)) := by
  unfold Blockchain.mine_pending_transactions at h
  split at h <;> rename_i hemp
  · left
    cases h
    exact ⟨hemp, rfl⟩
  · right
    refine ⟨hemp, ?_⟩
    unfold Blockchain.get_latest_block at h
    rcases hl : bc.chain.getLast? with _ | latest <;> rw [hl] at h <;> dsimp only at h
    · cases h
    · rcases hmine : (Block.make (latest.index + 1) ts (TxField.list bc.pending_transactions)
          latest.hash 0).mine_block bc.difficulty fuel with _ | nb <;>
        rw [hmine] at h <;> dsimp only at h
      · cases h
      · cases h
        exact ⟨latest, nb, rfl, hmine, rfl⟩

/-! Reachable states and the chain invariant. -/

/-- The states reachable through the modelled operations: fresh
construction, add_transaction, and completed mining runs. -/
inductive Reachable : Blockchain → Prop
  | fresh (fuel d : Nat) (ts : String) (bc : Blockchain) :
      freshBlockchain fuel d ts = some bc → Reachable bc
  | add (bc : Blockchain) (t : PyTx) :
      Reachable bc → Reachable (bc.add_transaction t).1
  | mine (fuel : Nat) (ts : String) (bc : Blockchain) (out : Blockchain × Bool) :
      Reachable bc → bc.mine_pending_transactions fuel ts = some out →
      Reachable out.1

/-- The invariant maintained by all reachable states: every block (the
genesis block included) is sealed at the configured difficulty, the
chain is pairwise linked, and at difficulty 0 every nonce is 0. -/
def GoodState (bc : Blockchain) : Prop :=
  (∀ b ∈ bc.chain,
      b.hash = b.calculate_hash ∧ hashMeetsDifficulty b.hash bc.difficulty = true) ∧
  chainLinked bc.chain ∧
  (bc.difficulty = 0 → ∀ b ∈ bc.chain, b.nonce = 0)

/-- Every reachable state satisfies the invariant. -/
theorem reachable_good {bc : Blockchain} (h : Reachable bc) : GoodState bc := by
  induction h with
  | fresh fuel d ts bc h =>
      obtain ⟨g, hg, rfl⟩ := freshBlockchain_spec fuel d ts bc h
      obtain ⟨h1, h2, _, _, _, _⟩ := mine_block_spec d fuel _ g rfl hg
      refine ⟨?_, trivial, ?_⟩
      · rintro b hb
        rcases List.mem_singleton.mp hb with rfl
        exact ⟨h1, h2⟩
      · rintro rfl b hb
        rcases List.mem_singleton.mp hb with rfl
        rw [mine_block_zero] at hg
        cases hg
        rfl
  | add bc t _ ih =>
      rcases add_transaction_spec bc t with ⟨d, _, _, heq⟩ | ⟨_, heq⟩ <;>
        rw [heq] <;> exact ih
  | mine fuel ts bc out _ hm ih =>
      rcases mine_pending_spec fuel ts bc out hm with ⟨_, rfl⟩ | ⟨_, latest, nb, hlast, hmine, rfl⟩
      · exact ih
      · obtain ⟨hseal, hlink, hnonce⟩ := ih
        obtain ⟨h1, h2, _, _, _, h6⟩ := mine_block_spec bc.difficulty fuel _ nb rfl hmine
        refine ⟨?_, ?_, ?_⟩
        · intro b hb
          rcases List.mem_append.mp hb with hb | hb
          · exact hseal b hb
          · rcases List.mem_singleton.mp hb with rfl
            exact ⟨h1, h2⟩
        · exact chainLinked_append nb bc.chain latest hlink hlast h6
        · intro hd b hb
          rcases List.mem_append.mp hb with hb | hb
          · exact hnonce hd b hb
          · rcases List.mem_singleton.mp hb with rfl
            rw [hd, mine_block_zero] at hmine
            cases hmine
            rfl

/-- A state satisfying the invariant passes is_chain_valid. -/
theorem good_is_chain_valid {bc : Blockchain} (h : GoodState bc) :
    bc.is_chain_valid = true := by
  obtain ⟨hseal, hlink, _⟩ := h
  unfold Blockchain.is_chain_valid
  rcases hchain : bc.chain with _ | ⟨g, rest⟩
  · rfl
  · rw [hchain] at hseal hlink
    exact chainValidFrom_of_good bc.difficulty g rest
      (fun b hb => hseal b (by simp [hb])) hlink

/-! Properties of Python == on keys, via a normalizing key function. -/

/-- The canonical key of a Python value under ==: numbers by their
rational value, strings by themselves. -/
def pyKey : PyVal → Rat ⊕ String
  | .int n => Sum.inl (n : Rat)
  | .float q => Sum.inl q
  | .str s => Sum.inr s

/-- pyEq is equality of canonical keys. -/
theorem pyEq_iff_key (a b : PyVal) : pyEq a b = true ↔ pyKey a = pyKey b := by
  cases a <;> cases b <;> simp [pyEq, pyKey]

theorem pyEq_refl (a : PyVal) : pyEq a a = true :=
  (pyEq_iff_key a a).mpr rfl

theorem pyEq_symm {a b : PyVal} (h : pyEq a b = true) : pyEq b a = true :=
  (pyEq_iff_key b a).mpr ((pyEq_iff_key a b).mp h).symm

theorem pyEq_trans {a b c : PyVal} (h1 : pyEq a b = true) (h2 : pyEq b c = true) :
    pyEq a c = true :=
  (pyEq_iff_key a c).mpr (((pyEq_iff_key a b).mp h1).trans ((pyEq_iff_key b c).mp h2))

theorem pyEq_false_of {a b : PyVal} (h : pyEq a b = false) : pyKey a ≠ pyKey b := by
  intro hk
  rw [(pyEq_iff_key a b).mpr hk] at h
  cases h
/-! Dictionary (assoc-list) lemmas. -/

/-- Unfolding lookup over a cons cell. -/
theorem dictGetD_cons (e : PyVal × Int) (rest : List (PyVal × Int)) (k : PyVal)
    (dflt : Int) :
    dictGetD (e :: rest) k dflt = if pyEq e.1 k then e.2 else dictGetD rest k dflt := by
  rcases he : pyEq e.1 k with _ | _ <;> simp [dictGetD, List.find?_cons, he]

/-- Unfolding update over a cons cell. -/
theorem dictSet_cons (e : PyVal × Int) (rest : List (PyVal × Int)) (k : PyVal)
    (v : Int) :
    dictSet (e :: rest) k v =
      if pyEq e.1 k then (e.1, v) :: rest else e :: dictSet rest k v := rfl

/-- Unfolding key membership over a cons cell. -/
theorem dictHasKey_cons (e : PyVal × Int) (rest : List (PyVal × Int)) (k : PyVal) :
    dictHasKey (e :: rest) k = (pyEq e.1 k || dictHasKey rest k) := by
  simp [dictHasKey]

/-- Lookup respects == of query keys. -/
theorem dictGetD_congr (inv : List (PyVal × Int)) {k k' : PyVal}
    (h : pyEq k k' = true) (dflt : Int) :
    dictGetD inv k dflt = dictGetD inv k' dflt := by
  induction inv with
  | nil => rfl
  | cons e rest ih =>
      rw [dictGetD_cons, dictGetD_cons, ih]
      rcases he : pyEq e.1 k with _ | _ <;> rcases he' : pyEq e.1 k' with _ | _
      · rfl
      · rw [pyEq_trans he' (pyEq_symm h)] at he
        cases he
      · rw [pyEq_trans he h] at he'
        cases he'
      · rfl

/-- Lookup after an update at a ==-matching key returns the new value. -/
theorem dictGetD_set_match (inv : List (PyVal × Int)) {k k' : PyVal} (v : Int)
    (h : pyEq k k' = true) :
    dictGetD (dictSet inv k v) k' 0 = v := by
  induction inv with
  | nil => simp [dictSet, dictGetD, List.find?_cons, h]
  | cons e rest ih =>
      rw [dictSet_cons]
      rcases he : pyEq e.1 k with _ | _
      · have he' : pyEq e.1 k' = false := by
          rcases hx : pyEq e.1 k' with _ | _
          · rfl
          · rw [pyEq_trans hx (pyEq_symm h)] at he
            cases he
        simpa [dictGetD_cons, he'] using ih
      · have he' : pyEq e.1 k' = true := pyEq_trans he h
        simp [dictGetD_cons, he']

/-- Lookup after an update at a non-matching key is unchanged. -/
theorem dictGetD_set_nomatch (inv : List (PyVal × Int)) {k k' : PyVal} (v : Int)
    (h : pyEq k k' = false) :
    dictGetD (dictSet inv k v) k' 0 = dictGetD inv k' 0 := by
  induction inv with
  | nil =>
      have hk : pyEq k k' ≠ true := by simp [h]
      simp [dictSet, dictGetD, List.find?_cons, hk]
  | cons e rest ih =>
      rw [dictSet_cons]
      rcases he : pyEq e.1 k with _ | _
      · rcases he' : pyEq e.1 k' with _ | _ <;>
          simp [dictGetD_cons, he', ih]
      · have he' : pyEq e.1 k' = false := by
          rcases hx : pyEq e.1 k' with _ | _
          · rfl
          · rw [pyEq_trans (pyEq_symm he) hx] at h
            cases h
        simp [dictGetD_cons, he']

/-- An update at a ==-matching key makes the key present. -/
theorem dictHasKey_set_self (inv : List (PyVal × Int)) {k k' : PyVal} (v : Int)
    (h : pyEq k k' = true) :
    dictHasKey (dictSet inv k v) k' = true := by
  induction inv with
  | nil => simp [dictSet, dictHasKey, h]
  | cons e rest ih =>
      rw [dictSet_cons]
      rcases he : pyEq e.1 k with _ | _
      · simp [dictHasKey_cons, ih]
      · simp [dictHasKey_cons, pyEq_trans he h]

/-- Updates never remove keys. -/
theorem dictHasKey_set_mono (inv : List (PyVal × Int)) (k k' : PyVal) (v : Int)
    (h : dictHasKey inv k' = true) :
    dictHasKey (dictSet inv k v) k' = true := by
  induction inv with
  | nil => cases h
  | cons e rest ih =>
      rw [dictSet_cons]
      rw [dictHasKey_cons] at h
      rcases he : pyEq e.1 k with _ | _
      · rcases hk : pyEq e.1 k' with _ | _
        · rw [hk, Bool.false_or] at h
          simp [dictHasKey_cons, hk, ih h]
        · simp [dictHasKey_cons, hk]
      · rcases hk : pyEq e.1 k' with _ | _
        · rw [hk, Bool.false_or] at h
          simp [dictHasKey_cons, h]
        · simp [dictHasKey_cons, hk]

/-! Sums of transaction changes (the specification-side reading of the
projection) and how the projection fold computes them. -/

/-- The contribution of one queue entry to the net quantity of key k:
int(change) when the entry is a dict whose item_id is == to k, else 0. -/
def txChange (k : PyVal) : PyTx → Int
  | .dict d => if pyEq d.item_id k then (pyInt d.change).getD 0 else 0
  | .other _ => 0

/-- The summed contribution of a transaction list. -/
def txListChange (k : PyVal) (l : List PyTx) : Int :=
  (l.map (txChange k)).sum

/-- The summed contribution of a block (0 when its transactions field
is skipped by the projector). -/
def blockChange (k : PyVal) (b : Block) : Int :=
  txListChange k ((blockTxList b.transactions).getD [])

/-- The summed contribution of a list of blocks. -/
def chainChange (k : PyVal) (bs : List Block) : Int :=
  (bs.map (blockChange k)).sum

/-- Whether a transaction is accepted by int() without raising. -/
def txCoercible : PyTx → Bool
  | .dict d => (pyInt d.change).isSome
  | .other _ => true

/-- Whether all transactions the projector would fold from this block
coerce cleanly (blocks the projector skips count as clean). -/
def blockCoercible (b : Block) : Bool :=
  match blockTxList b.transactions with
  | none => true
  | some l => l.all txCoercible

/-- Key k appears in some transaction the projector processes from
these blocks. -/
def appearsIn (k : PyVal) (bs : List Block) : Prop :=
  ∃ b ∈ bs, ∃ l, blockTxList b.transactions = some l ∧
    ∃ d, PyTx.dict d ∈ l ∧ pyEq d.item_id k = true

/-- One projection step adds the transaction's contribution at every
key. -/
theorem applyTransaction_val {inv inv' : List (PyVal × Int)} {t : PyTx}
    (h : applyTransaction inv t = some inv') (k : PyVal) :
    dictGetD inv' k 0 = dictGetD inv k 0 + txChange k t := by
  rcases t with d | j
  · simp only [applyTransaction] at h
    rcases hp : pyInt d.change with _ | c <;> rw [hp] at h <;> dsimp only at h
    · cases h
    · cases h
      rcases hk : pyEq d.item_id k with _ | _
      · rw [dictGetD_set_nomatch _ _ hk]
        simp [txChange, hk]
      · rw [dictGetD_set_match _ _ hk, dictGetD_congr _ hk]
        simp [txChange, hk, hp]
  · cases h
    simp [txChange]

/-- One projection step preserves present keys and makes the
transaction's own key present. -/
theorem applyTransaction_hasKey {inv inv' : List (PyVal × Int)} {t : PyTx}
    (h : applyTransaction inv t = some inv') (k : PyVal)
    (hk : dictHasKey inv k = true ∨ ∃ d, t = PyTx.dict d ∧ pyEq d.item_id k = true) :
    dictHasKey inv' k = true := by
  rcases t with d | j
  · simp only [applyTransaction] at h
    rcases hp : pyInt d.change with _ | c <;> rw [hp] at h <;> dsimp only at h
    · cases h
    · cases h
      rcases hk with hk | ⟨d', hd', hk⟩
      · exact dictHasKey_set_mono _ _ _ _ hk
      · cases hd'
        exact dictHasKey_set_self _ _ hk
  · cases h
    rcases hk with hk | ⟨d', hd', _⟩
    · exact hk
    · cases hd'

/-- Folding a transaction list adds the summed contribution at every
key. -/
theorem applyTxList_val :
    ∀ (l : List PyTx) (inv inv' : List (PyVal × Int)),
      applyTxList inv l = some inv' → ∀ k,
        dictGetD inv' k 0 = dictGetD inv k 0 + txListChange k l := by
  intro l
  induction l with
  | nil =>
      intro inv inv' h k
      cases h
      simp [txListChange]
  | cons t ts ih =>
      intro inv inv' h k
      simp only [applyTxList] at h
      rcases ht : applyTransaction inv t with _ | inv1 <;> rw [ht] at h <;> dsimp only at h
      · cases h
      · rw [ih _ _ h k, applyTransaction_val ht k]
        simp [txListChange]
        ring

/-- Folding a transaction list keeps present keys and makes every
processed item_id present. -/
theorem applyTxList_hasKey :
    ∀ (l : List PyTx) (inv inv' : List (PyVal × Int)),
      applyTxList inv l = some inv' → ∀ k,
        (dictHasKey inv k = true ∨ ∃ d, PyTx.dict d ∈ l ∧ pyEq d.item_id k = true) →
        dictHasKey inv' k = true := by
  intro l
  induction l with
  | nil =>
      intro inv inv' h k hk
      cases h
      rcases hk with hk | ⟨d, hd, _⟩
      · exact hk
      · cases hd
  | cons t ts ih =>
      intro inv inv' h k hk
      simp only [applyTxList] at h
      rcases ht : applyTransaction inv t with _ | inv1 <;> rw [ht] at h <;> dsimp only at h
      · cases h
      · refine ih _ _ h k ?_
        rcases hk with hk | ⟨d, hd, hdk⟩
        · exact Or.inl (applyTransaction_hasKey ht k (Or.inl hk))
        · rcases List.mem_cons.mp hd with rfl | hd
          · exact Or.inl (applyTransaction_hasKey ht k (Or.inr ⟨d, rfl, hdk⟩))
          · exact Or.inr ⟨d, hd, hdk⟩

/-- A fully coercible transaction list folds without raising. -/
theorem applyTxList_total :
    ∀ (l : List PyTx), l.all txCoercible = true →
      ∀ inv, ∃ inv', applyTxList inv l = some inv' := by
  intro l
  induction l with
  | nil => exact fun _ inv => ⟨inv, rfl⟩
  | cons t ts ih =>
      intro h inv
      rw [List.all_cons, Bool.and_eq_true] at h
      rcases t with d | j
      · rcases hp : pyInt d.change with _ | c
        · rw [txCoercible, hp] at h
          cases h.1
        · obtain ⟨inv', hinv'⟩ := ih h.2 (dictSet inv d.item_id (dictGetD inv d.item_id 0 + c))
          exact ⟨inv', by simp [applyTxList, applyTransaction, hp, hinv']⟩
      · obtain ⟨inv', hinv'⟩ := ih h.2 inv
        exact ⟨inv', by simp [applyTxList, applyTransaction, hinv']⟩

/-- Folding blocks adds the chain-wide summed contribution. -/
theorem applyBlocks_val :
    ∀ (bs : List Block) (inv inv' : List (PyVal × Int)),
      applyBlocks inv bs = some inv' → ∀ k,
        dictGetD inv' k 0 = dictGetD inv k 0 + chainChange k bs := by
  intro bs
  induction bs with
  | nil =>
      intro inv inv' h k
      cases h
      simp [chainChange]
  | cons b bs ih =>
      intro inv inv' h k
      simp only [applyBlocks] at h
      rcases hb : blockTxList b.transactions with _ | l <;> rw [hb] at h <;> dsimp only at h
      · rw [ih _ _ h k]
        simp [chainChange, blockChange, hb, txListChange]
      · rcases hl : applyTxList inv l with _ | inv1 <;> rw [hl] at h <;> dsimp only at h
        · cases h
        · rw [ih _ _ h k, applyTxList_val _ _ _ hl k]
          simp [chainChange, blockChange, hb]
          ring

/-- Folding blocks keeps present keys and makes every processed
item_id present. -/
theorem applyBlocks_hasKey :
    ∀ (bs : List Block) (inv inv' : List (PyVal × Int)),
      applyBlocks inv bs = some inv' → ∀ k,
        (dictHasKey inv k = true ∨ appearsIn k bs) → dictHasKey inv' k = true := by
  intro bs
  induction bs with
  | nil =>
      intro inv inv' h k hk
      cases h
      rcases hk with hk | ⟨b, hb, _⟩
      · exact hk
      · cases hb
  | cons b bs ih =>
      intro inv inv' h k hk
      simp only [applyBlocks] at h
      rcases hb : blockTxList b.transactions with _ | l <;> rw [hb] at h <;> dsimp only at h
      · refine ih _ _ h k ?_
        rcases hk with hk | ⟨b', hb', l', hl', hd⟩
        · exact Or.inl hk
        · rcases List.mem_cons.mp hb' with rfl | hb'
          · rw [hb] at hl'
            cases hl'
          · exact Or.inr ⟨b', hb', l', hl', hd⟩
      · rcases hl : applyTxList inv l with _ | inv1 <;> rw [hl] at h <;> dsimp only at h
        · cases h
        · refine ih _ _ h k ?_
          rcases hk with hk | ⟨b', hb', l', hl', d, hd, hdk⟩
          · exact Or.inl (applyTxList_hasKey _ _ _ hl k (Or.inl hk))
          · rcases List.mem_cons.mp hb' with rfl | hb'
            · rw [hb] at hl'
              cases hl'
              exact Or.inl (applyTxList_hasKey _ _ _ hl k (Or.inr ⟨d, hd, hdk⟩))
            · exact Or.inr ⟨b', hb', l', hl', d, hd, hdk⟩

/-- A chain of fully coercible blocks folds without raising. -/
theorem applyBlocks_total :
    ∀ (bs : List Block), (∀ b ∈ bs, blockCoercible b = true) →
      ∀ inv, ∃ inv', applyBlocks inv bs = some inv' := by
  intro bs
  induction bs with
  | nil => exact fun _ inv => ⟨inv, rfl⟩
  | cons b bs ih =>
      intro h inv
      have hb : blockCoercible b = true := h b (by simp)
      have hrest : ∀ x ∈ bs, blockCoercible x = true := fun x hx => h x (by simp [hx])
      rcases hbl : blockTxList b.transactions with _ | l
      · obtain ⟨inv', hinv'⟩ := ih hrest inv
        exact ⟨inv', by simp [applyBlocks, hbl, hinv']⟩
      · rw [blockCoercible, hbl] at hb
        obtain ⟨inv1, hinv1⟩ := applyTxList_total l hb inv
        obtain ⟨inv', hinv'⟩ := ih hrest inv1
        exact ⟨inv', by simp [applyBlocks, hbl, hinv1, hinv']⟩

/-! The claims. -/

/-- C1 (counterexample): a validly constructed two-block chain stays
"valid" after the genesis payload is mutated without updating the
genesis block's stored hash, because the validation loop starts at
index 1 and never re-hashes block 0.  The stored hash of the tampered
genesis block provably disagrees with its recomputed digest, yet
is_chain_valid still returns true. -/
theorem genesis_tamper_undetected :
    bc1.is_chain_valid = true ∧
    g0tampered.transactions ≠ g0.transactions ∧
    g0tampered.hash = g0.hash ∧
    g0tampered.hash ≠ g0tampered.calculate_hash ∧
    bc1tamperedGenesis.is_chain_valid = true :=
  ⟨by decide, by decide, rfl, by decide, by decide⟩

/-- C1 (amended): in a chain that passes validation, mutating any of
the five hashed fields of any NON-genesis sealed block without
updating that block's stored hash makes is_chain_valid return false.
(The genesis block at index 0 is not protected; see the
counterexample.) -/
theorem nongenesis_tamper_detected (bc : Blockchain) (pre post : List Block)
    (b b' : Block)
    (hchain : bc.chain = pre ++ b :: post) (hpre : pre ≠ [])
    (hvalid : bc.is_chain_valid = true)
    (hmut : (b'.index, b'.timestamp, b'.transactions, b'.previous_hash, b'.nonce) ≠
            (b.index, b.timestamp, b.transactions, b.previous_hash, b.nonce))
    (hhash : b'.hash = b.hash) :
    Blockchain.is_chain_valid { bc with chain := pre ++ b' :: post } = false := by
  rcases pre with _ | ⟨g, pre'⟩
  · exact absurd rfl hpre
  · have hvf : chainValidFrom bc.difficulty g (pre' ++ b :: post) = true := by
      unfold Blockchain.is_chain_valid at hvalid
      rw [hchain] at hvalid
      simpa only [List.cons_append] using hvalid
    have hb : b.hash = b.calculate_hash :=
      chainValidFrom_sealed _ _ _ hvf b (by simp)
    rcases hx : Blockchain.is_chain_valid { bc with chain := (g :: pre') ++ b' :: post } with _ | _
    · rfl
    · exfalso
      have hvf' : chainValidFrom bc.difficulty g (pre' ++ b' :: post) = true := by
        unfold Blockchain.is_chain_valid at hx
        simpa only [List.cons_append] using hx
      have hb' : b'.hash = b'.calculate_hash :=
        chainValidFrom_sealed _ _ _ hvf' b' (by simp)
      have hcc : b.calculate_hash = b'.calculate_hash := by
        rw [← hb, ← hhash, hb']
      obtain ⟨e1, e2, e3, e4, e5⟩ := calculate_hash_inj hcc
      exact hmut (by rw [e1, e2, e3, e4, e5])

/-- C1 (witness for the amended theorem): tampering with block 1 of the
concrete two-block chain is detected. -/
theorem nongenesis_tamper_detected_witness :
    bc1.is_chain_valid = true ∧ bc1tamperedB1.is_chain_valid = false :=
  ⟨by decide,
    nongenesis_tamper_detected bc1 [g0] [] b1 b1tampered rfl (by decide)
      (by decide) (by decide) rfl⟩

/-- C2: every reachable state (fresh construction, and closure under
add_transaction and completed mine_pending_transactions calls) passes
is_chain_valid, and every block in it -- the genesis block included --
has its stored hash equal to its recomputed digest, meets the
configured difficulty, and is correctly linked to its predecessor. -/
theorem reachable_chain_valid (bc : Blockchain) (h : Reachable bc) :
    bc.is_chain_valid = true ∧
    (∀ b ∈ bc.chain, b.hash = b.calculate_hash ∧
      hashMeetsDifficulty b.hash bc.difficulty = true) ∧
    chainLinked bc.chain := by
  have g := reachable_good h
  exact ⟨good_is_chain_valid g, g.1, g.2.1⟩

/-- C2 (witness): the concrete two-block chain, reached by fresh
construction, one add_transaction and one mining run, is valid. -/
theorem reachable_chain_valid_witness :
    bc1.is_chain_valid = true ∧
    (∀ b ∈ bc1.chain, b.hash = b.calculate_hash ∧
      hashMeetsDifficulty b.hash bc1.difficulty = true) ∧
    chainLinked bc1.chain :=
  reachable_chain_valid bc1
    (Reachable.mine 1 "t1" (bc0.add_transaction txA).1 (bc1, true)
      (Reachable.add bc0 txA (Reachable.fresh 1 0 "t0" bc0 (by decide)))
      (by decide))

/-- C3: a completed mine_pending_transactions call on a non-empty
queue returns True and appends exactly one block holding the whole
queue in order, indexed one past the previous latest block and linked
to its hash, sealed at the configured difficulty; the queue is cleared
and one save_chain call is made. -/
theorem mine_pending_appends_block (fuel : Nat) (ts : String) (bc : Blockchain)
    (out : Blockchain × Bool)
    (hne : bc.pending_transactions ≠ [])
    (h : bc.mine_pending_transactions fuel ts = some out) :
    out.2 = true ∧
    ∃ latest nb, bc.chain.getLast? = some latest ∧
      out.1.chain = bc.chain ++ [nb] ∧
      nb.index = latest.index + 1 ∧
      nb.transactions = TxField.list bc.pending_transactions ∧
      nb.previous_hash = latest.hash ∧
      nb.hash = nb.calculate_hash ∧
      hashMeetsDifficulty nb.hash bc.difficulty = true ∧
      out.1.pending_transactions = [] ∧
      out.1.saveCount = bc.saveCount + 1 := by
  rcases mine_pending_spec fuel ts bc out h with ⟨hemp, _⟩ | ⟨_, latest, nb, hlast, hmine, rfl⟩
  · exact absurd hemp hne
  · obtain ⟨h1, h2, h3, _, h5, h6⟩ := mine_block_spec bc.difficulty fuel _ nb rfl hmine
    exact ⟨rfl, latest, nb, hlast, rfl, h3, h5, h6, h1, h2, rfl, rfl⟩

/-- C3 (witness): mining the concrete one-transaction queue appends
block b1 and reports True. -/
theorem mine_pending_appends_block_witness :
    (bc0.add_transaction txA).1.pending_transactions ≠ [] ∧ (bc1, true).2 = true :=
  ⟨by decide,
    (mine_pending_appends_block 1 "t1" (bc0.add_transaction txA).1 (bc1, true)
      (by decide) (by decide)).1⟩

/-- C4: on a chain that passes validation and whose non-genesis blocks
carry cleanly coercible transactions, get_inventory returns a mapping
whose value at every key equals the sum of int(change) over all
matching transactions of blocks 1..N; every item_id that appears is
present (even at zero or negative net quantity); and the per-key result
of folding a transaction batch is invariant under permutation of the
batch. -/
theorem get_inventory_projection (bc : Blockchain)
    (hv : bc.is_chain_valid = true)
    (hwf : ∀ b ∈ bc.chain.tail, blockCoercible b = true) :
    ∃ m, bc.get_inventory = InvResult.inv m ∧
      (∀ k, dictGetD m k 0 = chainChange k bc.chain.tail) ∧
      (∀ k, appearsIn k bc.chain.tail → dictHasKey m k = true) ∧
      (∀ (l l' : List PyTx) (inv r r' : List (PyVal × Int)), l.Perm l' →
        applyTxList inv l = some r → applyTxList inv l' = some r' →
        ∀ k, dictGetD r k 0 = dictGetD r' k 0) := by
  obtain ⟨m, hm⟩ := applyBlocks_total bc.chain.tail hwf []
  refine ⟨m, ?_, ?_, ?_, ?_⟩
  · simp [Blockchain.get_inventory, hv, hm]
  · intro k
    have h0 : dictGetD [] k 0 = 0 := rfl
    rw [applyBlocks_val _ _ _ hm k, h0, zero_add]
  · intro k happ
    exact applyBlocks_hasKey _ _ _ hm k (Or.inr happ)
  · intro l l' inv r r' hperm hr hr' k
    rw [applyTxList_val _ _ _ hr k, applyTxList_val _ _ _ hr' k,
      txListChange, txListChange, (hperm.map (txChange k)).sum_eq]

/-- C4 (witness): the concrete two-block chain projects to a mapping
whose values are the summed changes. -/
theorem get_inventory_projection_witness :
    (∀ b ∈ bc1.chain.tail, blockCoercible b = true) ∧
    ∃ m, bc1.get_inventory = InvResult.inv m ∧
      (∀ k, dictGetD m k 0 = chainChange k bc1.chain.tail) := by
  refine ⟨by decide, ?_⟩
  obtain ⟨m, h1, h2, _, _⟩ := get_inventory_projection bc1 (by decide) (by decide)
  exact ⟨m, h1, h2⟩

/-- C5: get_inventory returns the distinguished validation-failure
result (the None of the source) exactly when the chain fails
validation; on a valid chain the result is never that failure value, so
the projection fold runs only behind a successful validation. -/
theorem get_inventory_validation_gate (bc : Blockchain) :
    bc.is_chain_valid = false ↔ bc.get_inventory = InvResult.invalidChain := by
  rcases hv : bc.is_chain_valid with _ | _
  · simp [Blockchain.get_inventory, hv]
  · simp only [Blockchain.get_inventory, hv, if_true]
    rcases hb : applyBlocks [] bc.chain.tail with _ | m <;> simp [hb]

/-- C5 (witness): the tampered chain fails validation and get_inventory
returns the distinguished failure value, not a mapping. -/
theorem get_inventory_validation_gate_witness :
    bc1tamperedB1.get_inventory = InvResult.invalidChain :=
  (get_inventory_validation_gate bc1tamperedB1).mp (by decide)

/-- C6: when the requested change is negative and the current validated
projection has insufficient stock, the submit path reports the stock
error and returns the state unchanged: nothing is enqueued, the chain
is untouched, and hence chain length and projected inventory are
unchanged. -/
theorem insufficient_stock_rejected (fuel : Nat) (ts : String) (bc : Blockchain)
    (item_id : String) (qc : PyVal) (change : Int) (m : List (PyVal × Int))
    (hid : ¬ item_id = "")
    (hq : pyInt qc = some change) (hneg : change < 0)
    (hinv : bc.get_inventory = InvResult.inv m)
    (hstock : dictGetD m (.str item_id) 0 + change < 0) :
    InventoryApp.addTransaction fuel ts bc item_id qc =
      some (bc, AppOutcome.stockError) := by
  unfold InventoryApp.addTransaction
  rw [if_neg hid, hq]
  dsimp only
  rw [if_pos hneg, hinv]
  dsimp only
  rw [if_pos hstock]

/-- C6 (witness): removing one unit of an item with zero stock on the
fresh chain is rejected with the stock error and changes nothing. -/
theorem insufficient_stock_rejected_witness :
    bc0.get_inventory = InvResult.inv [] ∧
    InventoryApp.addTransaction 1 "t1" bc0 "A" (.int (-1)) =
      some (bc0, AppOutcome.stockError) :=
  ⟨rfl,
    insufficient_stock_rejected 1 "t1" bc0 "A" (.int (-1)) (-1) []
      (by decide) rfl (by decide) rfl (by decide)⟩

/-- A transaction with an empty item_id. -/
def txEmptyId : PyTx := .dict ⟨.str "", .int 5⟩

/-- C7 (counterexample): a transaction whose item_id is the empty
string is accepted by add_transaction (str() never fails and emptiness
is not checked) and lands in the pending queue, contradicting the
claimed rejection of empty identifiers. -/
theorem empty_item_id_accepted :
    (bc0.add_transaction txEmptyId).2 = true ∧
    (bc0.add_transaction txEmptyId).1.pending_transactions = [txEmptyId] :=
  ⟨rfl, rfl⟩

/-- C7 (amended): add_transaction accepts a transaction exactly when it
is a dict carrying both keys whose change is int()-coercible; the
item_id is not constrained at all (an empty string is accepted).  On
acceptance the transaction is appended to the pending queue; on
rejection the state is returned unchanged. -/
theorem add_transaction_accept_iff (bc : Blockchain) (t : PyTx) :
    ((bc.add_transaction t).2 = true ↔
      ∃ d, t = PyTx.dict d ∧ (pyInt d.change).isSome = true) ∧
    ((bc.add_transaction t).2 = true →
      bc.add_transaction t =
        ({ bc with pending_transactions := bc.pending_transactions ++ [t] }, true)) ∧
    ((bc.add_transaction t).2 = false → bc.add_transaction t = (bc, false)) := by
  rcases add_transaction_spec bc t with ⟨d, ht, hs, heq⟩ | ⟨hno, heq⟩
  · subst ht
    refine ⟨?_, ?_, ?_⟩
    · constructor
      · intro _
        exact ⟨d, rfl, hs⟩
      · intro _
        rw [heq]
    · intro _
      exact heq
    · intro hf
      rw [heq] at hf
      cases hf
  · rw [heq]
    refine ⟨?_, ?_, ?_⟩
    · constructor
      · intro hf
        cases hf
      · rintro ⟨d, ht, hs⟩
        rw [hno d ht] at hs
        cases hs
    · intro hf
      cases hf
    · intro _
      rfl

/-- C7 (witness for the amended theorem): a well-formed transaction is
accepted. -/
theorem add_transaction_accept_iff_witness :
    (bc0.add_transaction txA).2 = true :=
  (add_transaction_accept_iff bc0 txA).1.mpr ⟨⟨.str "A", .int 2⟩, rfl, rfl⟩

/-- C8: mine_pending_transactions on an empty queue returns False (the
"nothing to mine" indicator, not an exception) with the state
completely unchanged, so chain length and projected inventory are
untouched. -/
theorem mine_pending_empty_noop (fuel : Nat) (ts : String) (bc : Blockchain)
    (h : bc.pending_transactions = []) :
    bc.mine_pending_transactions fuel ts = some (bc, false) := by
  unfold Blockchain.mine_pending_transactions
  rw [if_pos h]

/-- C8 (witness): mining the fresh chain with nothing pending is a
no-op. -/
theorem mine_pending_empty_noop_witness :
    bc0.pending_transactions = [] ∧
    bc0.mine_pending_transactions 1 "t9" = some (bc0, false) :=
  ⟨rfl, mine_pending_empty_noop 1 "t9" bc0 rfl⟩

/-- C9: at difficulty 0 the mining loop returns immediately without
one nonce step, leaving the block exactly as constructed; consequently
on every reachable chain at difficulty 0 every block (the genesis block
included) has nonce 0 and its stored hash equal to its digest. -/
theorem difficulty_zero_mining (fuel : Nat) (b : Block) :
    b.mine_block 0 fuel = some b ∧
    (∀ bc : Blockchain, Reachable bc → bc.difficulty = 0 →
      ∀ blk ∈ bc.chain, blk.nonce = 0 ∧ blk.hash = blk.calculate_hash) := by
  refine ⟨mine_block_zero fuel b, ?_⟩
  intro bc hr hd blk hblk
  obtain ⟨hseal, _, hn⟩ := reachable_good hr
  exact ⟨hn hd blk hblk, (hseal blk hblk).1⟩

/-- C9 (witness): the concrete genesis block mines to itself at
difficulty 0 and carries nonce 0 on the reachable fresh chain. -/
theorem difficulty_zero_mining_witness :
    g0.mine_block 0 3 = some g0 ∧ g0.nonce = 0 :=
  ⟨(difficulty_zero_mining 3 g0).1,
    ((difficulty_zero_mining 3 g0).2 bc0 (Reachable.fresh 1 0 "t0" bc0 (by decide))
      rfl g0 (by simp [bc0])).1⟩

/-- C10: add_transaction accepts a float change (int() truncates it
without raising) and a numeric-string change, storing the original
un-coerced value in the pending queue; the projector then applies
int(), so a float change contributes its value truncated toward zero. -/
theorem nonint_change_accepted_truncated (bc : Blockchain) (id : PyVal) (q : Rat)
    (s : String) (n : Int) :
    (bc.add_transaction (.dict ⟨id, .float q⟩) =
      ({ bc with pending_transactions :=
          bc.pending_transactions ++ [.dict ⟨id, .float q⟩] }, true)) ∧
    (pyIntOfString s = some n →
      bc.add_transaction (.dict ⟨id, .str s⟩) =
        ({ bc with pending_transactions :=
            bc.pending_transactions ++ [.dict ⟨id, .str s⟩] }, true)) ∧
    (∀ inv, applyTransaction inv (.dict ⟨id, .float q⟩) =
      some (dictSet inv id (dictGetD inv id 0 + ratTrunc q))) := by
  refine ⟨rfl, ?_, fun inv => rfl⟩
  intro hs
  simp [Blockchain.add_transaction, pyInt, hs]

/-- C10 (witness): change 7/2 (the float 3.5) is accepted, stored
un-coerced, and contributes 3 to the projected quantity; the string
change "5" parses. -/
theorem nonint_change_accepted_truncated_witness :
    (pyIntOfString "5" = some 5) ∧
    bc0.add_transaction (.dict ⟨.str "A", .float (mkRat 7 2)⟩) =
      ({ bc0 with pending_transactions := [.dict ⟨.str "A", .float (mkRat 7 2)⟩] }, true) ∧
    applyTransaction [] (.dict ⟨.str "A", .float (mkRat 7 2)⟩) = some [(.str "A", 3)] := by
  refine ⟨by decide, (nonint_change_accepted_truncated bc0 (.str "A") (mkRat 7 2) "5" 5).1, ?_⟩
  rw [(nonint_change_accepted_truncated bc0 (.str "A") (mkRat 7 2) "5" 5).2.2 []]
  decide
